import Mathlib

/-!
Verification of the chatbotcnt retrieval core against its specification.

This file gives a shallow embedding of the two core modules:

* src/retriever/retriever.py (class CNTRetriever): direct article lookup,
  vector search with evidence floor and per-article deduplication, optional
  cross-encoder re-scoring, optional BM25 blending, final sort and truncation.
* src/utils/context_compressor.py: extractive per-article compression under a
  character budget.

Modelling conventions:

* Python strings are lists of characters (Txt := List Char); lengths are
  codepoint counts, as in Python.
* Python floats are modelled exactly by rational numbers.  All score
  arithmetic in the source (0.7/0.3 blending, /10 normalisation, 0.9 margin)
  is exact decimal arithmetic, so the rational model is faithful.
* External black boxes (the FAISS index together with the embedding model,
  the BM25 library, the cross-encoder) are parameters: the vector search
  result for the query is an input list of (row, score) pairs, the BM25
  library is a function from a tokenised corpus to a score function, and the
  cross-encoder predict call is a function returning Option (failure = none,
  modelling a raised exception).
* Python dicts holding article records are structures over the fields the
  code reads, plus an opaque `other` association list standing for any
  remaining keys (copied verbatim by dict.copy()).
* str.lower/str.upper are modelled on ASCII plus the accented Spanish
  letters appearing in the source's literals; the regex classes \\s, \\w, \\d
  are modelled on the corresponding ASCII/Spanish subsets.
* list.sort(key=..., reverse=True) is Python's stable sort; it is modelled
  by List.insertionSort with the relation (key b <= key a), which performs
  the identical stable placement (an element is placed before a later one
  exactly when its key is greater or equal).
-/

set_option linter.unusedVariables false

abbrev Txt := List Char

/-- ASCII whitespace, modelling Python's str.strip characters and the regex
class \s on the inputs of interest. -/
def isPySpace (c : Char) : Bool :=
  c = ' ' || c = '\t' || c = '\n' || c = '\r' || c = '\x0b' || c = '\x0c'

/-- Python str.lower on ASCII plus the accented Spanish letters that occur in
the source's string literals. -/
def pyLower (c : Char) : Char :=
  if c = 'Á' then 'á' else if c = 'É' then 'é' else if c = 'Í' then 'í'
  else if c = 'Ó' then 'ó' else if c = 'Ú' then 'ú' else if c = 'Ñ' then 'ñ'
  else if c = 'Ü' then 'ü' else c.toLower

/-- Python str.upper on ASCII plus the accented Spanish letters that occur in
the source's string literals. -/
def pyUpper (c : Char) : Char :=
  if c = 'á' then 'Á' else if c = 'é' then 'É' else if c = 'í' then 'Í'
  else if c = 'ó' then 'Ó' else if c = 'ú' then 'Ú' else if c = 'ñ' then 'Ñ'
  else if c = 'ü' then 'Ü' else c.toUpper

/-- Executable rational addition.  Batteries marks Rat.add, Rat.mul and
Rat.div irreducible, which blocks kernel evaluation; the embedding therefore
computes with normalize-based equivalents, each proven equal to the standard
operation below (qAdd_eq, qMul_eq, qDivNat_eq). -/
def qAdd (a b : ℚ) : ℚ := mkRat (a.num * b.den + b.num * a.den) (a.den * b.den)

/-- Executable rational multiplication. -/
def qMul (a b : ℚ) : ℚ := mkRat (a.num * b.num) (a.den * b.den)

/-- Executable division of a rational by a natural number. -/
def qDivNat (a : ℚ) (n : Nat) : ℚ := mkRat a.num (a.den * n)

/-- Python str.strip(). -/
def strip (l : Txt) : Txt :=
  ((l.dropWhile isPySpace).reverse.dropWhile isPySpace).reverse

/-- Python substring containment (needle in hay). -/
def containsSub (needle hay : Txt) : Bool :=
  hay.tails.any (fun t => needle.isPrefixOf t)

/-- Scanner for non-overlapping substring counting: skip counts how many
characters of an already-counted match remain to be consumed. -/
def countSubGo (needle : Txt) : Txt → Nat → Nat
  | [], _ => 0
  | c :: rest, skip =>
    if 0 < skip then countSubGo needle rest (skip - 1)
    else if needle.isPrefixOf (c :: rest) then 1 + countSubGo needle rest (needle.length - 1)
    else countSubGo needle rest 0

/-- Python str.count: number of non-overlapping occurrences, advancing past
each match (len+1 for the empty needle, as in Python). -/
def countSub (needle : Txt) (hay : Txt) : Nat :=
  if needle = [] then hay.length + 1 else countSubGo needle hay 0

/-- The regex class \w restricted to ASCII alphanumerics, underscore and the
accented Spanish letters relevant to the corpus. -/
def isWordChar (c : Char) : Bool :=
  c.isAlphanum || c = '_' ||
  c = 'á' || c = 'é' || c = 'í' || c = 'ó' || c = 'ú' || c = 'ñ' || c = 'ü' ||
  c = 'Á' || c = 'É' || c = 'Í' || c = 'Ó' || c = 'Ú' || c = 'Ñ' || c = 'Ü'

/-- Scanner for maximal word-character runs: cur holds the reversed current
run. -/
def wordRunsGo : Txt → Txt → List Txt
  | [], cur => if cur = [] then [] else [cur.reverse]
  | c :: rest, cur =>
    if isWordChar c then wordRunsGo rest (c :: cur)
    else if cur = [] then wordRunsGo rest []
    else cur.reverse :: wordRunsGo rest []

/-- Maximal runs of \w characters, i.e. re.findall of a \w+ pattern. -/
def wordRuns (l : Txt) : List Txt :=
  wordRunsGo l []

/-- CNTRetriever._tokenize: re.findall of \w+ over the lowercased text. -/
def tokenize (t : Txt) : List Txt :=
  wordRuns (t.map pyLower)

/-- Parse a decimal digit run as a natural number. -/
def digitsToNat (ds : Txt) : Nat :=
  ds.foldl (fun a c => 10 * a + (c.toNat - 48)) 0

/-- Match the regex fragment \s+(\d+) at the start of the list: at least one
whitespace character, then the maximal digit run. -/
def wsDigits (l : Txt) : Option ℤ :=
  match l with
  | [] => none
  | c :: rest =>
    if isPySpace c then
      let ds := (rest.dropWhile isPySpace).takeWhile Char.isDigit
      if ds = [] then none else some (digitsToNat ds : ℤ)
    else none

/-- Numbers captured by the three patterns of
CNTRetriever._extract_article_numbers when anchored at this position of the
lowercased query. -/
def matchesAt (l : Txt) : List ℤ :=
  let r1 : Option ℤ :=
    match l with
    | 'a' :: 'r' :: 't' :: c :: 'c' :: 'u' :: 'l' :: 'o' :: rest =>
      if c = 'í' ∨ c = 'i' then wsDigits rest else none
    | _ => none
  let r2 : Option ℤ :=
    match l with
    | 'a' :: 'r' :: 't' :: '.' :: rest => wsDigits rest
    | 'a' :: 'r' :: 't' :: rest => wsDigits rest
    | _ => none
  let r3 : Option ℤ :=
    match l with
    | 'a' :: 'r' :: 't' :: 'i' :: 'c' :: 'u' :: 'l' :: 'o' :: rest => wsDigits rest
    | _ => none
  r1.toList ++ r2.toList ++ r3.toList

/-- Insertion into an ascending list of integers. -/
def insertAsc (x : ℤ) : List ℤ → List ℤ
  | [] => [x]
  | y :: ys => if x ≤ y then x :: y :: ys else y :: insertAsc x ys

/-- Ascending sort of a list of integers, modelling Python's sorted(). -/
def sortAsc : List ℤ → List ℤ
  | [] => []
  | x :: xs => insertAsc x (sortAsc xs)

/-- CNTRetriever._extract_article_numbers: the sorted set of integers matched
by the "articulo N" / "art. N" patterns over the lowercased query. -/
def extract_article_numbers (q : Txt) : List ℤ :=
  sortAsc (((q.map pyLower).tails.foldr (fun t acc => matchesAt t ++ acc) []).dedup)

/-- One metadata record of meta.jsonl (the dict fields the code reads). -/
structure Meta where
  doc_id : Option ℤ
  articulo : Option ℤ
  titulo : Option Txt
  titulo_nombre : Option Txt
  capitulo : Option Txt
  capitulo_nombre : Option Txt
  epigrafe : Option Txt
  texto : Option Txt
  texto_completo : Option Txt
  content : Option Txt
  body : Option Txt
  snippet : Option Txt
deriving DecidableEq, Inhabited

/-- Python truthiness of an optional string field: present and non-empty. -/
def truthyF (o : Option Txt) : Option Txt :=
  match o with
  | some t => if t = [] then none else some t
  | none => none

/-- CNTRetriever._get_text with the default text_fields_priority. -/
def get_text (m : Meta) : Txt :=
  (truthyF m.texto <|> truthyF m.texto_completo <|> truthyF m.content <|>
    truthyF m.body <|> truthyF m.snippet).getD []

/-- Provenance tag "direct". -/
def strDirect : Txt := ['d', 'i', 'r', 'e', 'c', 't']

/-- Provenance tag "semantic". -/
def strSemantic : Txt := ['s', 'e', 'm', 'a', 'n', 't', 'i', 'c']

/-- A search result record produced by CNTRetriever._pack. -/
structure Candidate where
  score : ℚ
  source : Txt
  doc_id : Option ℤ
  articulo : Option ℤ
  titulo : Option Txt
  titulo_nombre : Option Txt
  capitulo : Option Txt
  capitulo_nombre : Option Txt
  epigrafe : Option Txt
  texto : Txt
deriving DecidableEq, Inhabited

/-- CNTRetriever._pack. -/
def pack (m : Meta) (score : ℚ) (source : Txt) : Candidate :=
  { score := score, source := source, doc_id := m.doc_id, articulo := m.articulo,
    titulo := m.titulo, titulo_nombre := m.titulo_nombre, capitulo := m.capitulo,
    capitulo_nombre := m.capitulo_nombre, epigrafe := m.epigrafe, texto := get_text m }

/-- A candidate with its score erased, for statements about the non-score
fields only. -/
def sansScore (c : Candidate) : Candidate := { c with score := 0 }

/-- The CNTRetriever state after construction.  The embedding model plus
FAISS index pair is abstracted away: a search call receives the (row, score)
list the index returns for the query.  bm25 holds the get_scores function of
the BM25 model built at construction (none when the stage is disabled);
reranker holds the cross-encoder predict function (none when absent), whose
result is none when the underlying call raises. -/
structure Retriever where
  meta : List Meta
  top_k : Nat
  overfetch : Nat
  min_score : ℚ
  use_bm25 : Bool
  bm25 : Option (List Txt → List ℚ)
  reranker : Option (List (Txt × Txt) → Option (List ℚ))

/-- Index of the last metadata record satisfying p, mirroring the
last-one-wins overwrite when Python builds a dict in a loop. -/
def lastMatchIdx (p : Meta → Bool) : List Meta → Option Nat
  | [] => none
  | m :: rest =>
    match lastMatchIdx p rest with
    | some i => some (i + 1)
    | none => if p m then some 0 else none

/-- The art_to_idx mapping built in CNTRetriever.__init__: article number to
the row of the last metadata record carrying it. -/
def artToIdx (meta : List Meta) (a : ℤ) : Option Nat :=
  lastMatchIdx (fun m => m.articulo = some a) meta

/-- Stage A of CNTRetriever.search: direct lookup of every article number
extracted from the query, appending a score-1.0 "direct" candidate and
marking the article as seen. -/
def directLoop (meta : List Meta) : List ℤ → List Candidate → List (Option ℤ) →
    List Candidate × List (Option ℤ)
  | [], cands, seen => (cands, seen)
  | num :: rest, cands, seen =>
    match artToIdx meta num with
    | none => directLoop meta rest cands seen
    | some idx =>
      match meta[idx]? with
      | none => directLoop meta rest cands seen
      | some m => directLoop meta rest (cands ++ [pack m 1 strDirect]) (seen ++ [some num])

/-- Stage B of CNTRetriever.search: walk the vector results, skipping
out-of-range rows, already-seen articles and scores below min_score; the
survivors are packed as "semantic" candidates. -/
def vectorLoop (meta : List Meta) (minScore : ℚ) : List (ℤ × ℚ) → List Candidate →
    List (Option ℤ) → List Candidate × List (Option ℤ)
  | [], cands, seen => (cands, seen)
  | (idx, s) :: rest, cands, seen =>
    if idx < 0 ∨ (meta.length : ℤ) ≤ idx then vectorLoop meta minScore rest cands seen
    else
      match meta[idx.toNat]? with
      | none => vectorLoop meta minScore rest cands seen
      | some m =>
        if m.articulo ∈ seen then vectorLoop meta minScore rest cands seen
        else if s < minScore then vectorLoop meta minScore rest cands seen
        else vectorLoop meta minScore rest (cands ++ [pack m s strSemantic]) (seen ++ [m.articulo])

/-- The candidate list after stages A and B, before any re-scoring. -/
def preCandidates (r : Retriever) (vec : List (ℤ × ℚ)) (query : Txt) : List Candidate :=
  let ab := directLoop r.meta (extract_article_numbers query) [] []
  (vectorLoop r.meta r.min_score vec ab.1 ab.2).1

/-- The (query, text) pairs handed to the cross-encoder; _get_text on a packed
candidate always resolves its "texto" field. -/
def mkPairs (query : Txt) (cands : List Candidate) : List (Txt × Txt) :=
  cands.map (fun c => (query, c.texto))

/-- Cross-encoder stage of CNTRetriever.search: when a reranker is present
and there is at least one candidate, predict scores for all (query, text)
pairs; on success overwrite the scores pairwise (zip truncates), on a raised
exception keep every score unchanged. -/
def rerankStage (r : Retriever) (query : Txt) (cands : List Candidate) : List Candidate :=
  match r.reranker with
  | none => cands
  | some f =>
    if cands.length = 0 then cands
    else
      match f (mkPairs query cands) with
      | none => cands
      | some scores =>
        (List.zipWith (fun c s => { c with score := s }) cands scores) ++
          cands.drop scores.length

/-- The per-candidate BM25 score lookup of CNTRetriever.search: find the first
metadata row with this candidate's doc_id and read the corpus-level score at
that row, defaulting to 0.0. -/
def bmLookup (meta : List Meta) (bmScores : List ℚ) (c : Candidate) : ℚ :=
  match meta.findIdx? (fun m => m.doc_id = c.doc_id) with
  | some idx => if h : idx < bmScores.length then bmScores.get ⟨idx, h⟩ else 0
  | none => 0

/-- BM25 stage of CNTRetriever.search: when enabled, with a built model and
more than one candidate, blend 70% of the existing score with 30% of the
corpus-level BM25 score divided by 10. -/
def bm25Stage (r : Retriever) (query : Txt) (cands : List Candidate) : List Candidate :=
  if r.use_bm25 then
    match r.bm25 with
    | some g =>
      if 1 < cands.length then
        let bmScores := g (tokenize query)
        cands.map (fun c =>
          let lex := qDivNat (bmLookup r.meta bmScores c) 10
          { c with score := qAdd (qMul (mkRat 7 10) c.score) (qMul (mkRat 3 10) lex) })
      else cands
    | none => cands
  else cands

/-- Python's stable descending sort by a rational key:
candidates.sort(key=..., reverse=True). -/
def sortDescBy {α : Type} (key : α → ℚ) (l : List α) : List α :=
  List.insertionSort (fun a b => key b ≤ key a) l

/-- The effective result count: Python's (top_k or self.top_k), under which a
requested 0 falls back to the constructor default. -/
def effectiveK (r : Retriever) (topk : Option Nat) : Nat :=
  match topk with
  | some t => if t = 0 then r.top_k else t
  | none => r.top_k

/-- CNTRetriever.search: direct stage, vector stage, optional cross-encoder
re-scoring, optional BM25 blend, stable descending sort, truncation. -/
def search (r : Retriever) (vec : List (ℤ × ℚ)) (query : Txt) (topk : Option Nat) :
    List Candidate :=
  (sortDescBy (fun c => c.score)
      (bm25Stage r query (rerankStage r query (preCandidates r vec query)))).take
    (effectiveK r topk)

/-- CNTRetriever.__init__: given the row count of the loaded index, the parsed
metadata records and the configuration, either abort on the alignment assert
or produce the retriever state; the BM25 model, when enabled and available, is
built from the tokenised texts of the FULL metadata corpus. -/
def initRetriever (ntotal : Nat) (meta : List Meta) (topk overfetch : Nat)
    (minScore : ℚ) (useBm hasBm : Bool)
    (bmLib : List (List Txt) → List Txt → List ℚ)
    (rr : Option (List (Txt × Txt) → Option (List ℚ))) : Except Txt Retriever :=
  if ntotal = meta.length then
    .ok { meta := meta, top_k := topk, overfetch := max topk overfetch,
          min_score := minScore, use_bm25 := useBm && hasBm,
          bm25 := if useBm && hasBm then some (bmLib (meta.map (fun m => tokenize (get_text m)))) else none,
          reranker := rr }
  else .error ("FAISS y meta.jsonl desalineados".toList)

/-- Split a character list at every occurrence of the separator, modelling
Python str.split(sep). -/
def splitOnChar (sep : Char) (l : Txt) : List Txt :=
  match l with
  | [] => [[]]
  | c :: rest =>
    let r := splitOnChar sep rest
    if c = sep then [] :: r
    else
      match r with
      | [] => [[c]]
      | s :: ss => (c :: s) :: ss

/-- Sentence end characters of the SENT_SPLIT regex. -/
def isSentEnd (c : Char) : Bool := c = '.' || c = '?' || c = '!'

/-- Scanner for re.split of SENT_SPLIT = (?<=[.?!])\s+ : cur holds the
reversed current piece, prev the character before the current position, and
skipping is true while consuming the whitespace run of a match. -/
def sentGo : Txt → Txt → Option Char → Bool → List Txt
  | [], cur, _, _ => [cur.reverse]
  | c :: rest, cur, prev, skipping =>
    if skipping then
      if isPySpace c then sentGo rest cur prev true
      else sentGo rest [c] (some c) false
    else if isPySpace c && (match prev with | some p => isSentEnd p | none => false : Bool) then
      cur.reverse :: sentGo rest [] none true
    else sentGo rest (c :: cur) (some c) false

/-- re.split of SENT_SPLIT: a maximal whitespace run preceded by a sentence
terminator separates two pieces. -/
def sentSplit (l : Txt) : List Txt :=
  sentGo l [] none false

/-- One article record handed to compress_context: the dict fields the code
reads and writes, plus an opaque association list for any remaining keys
(preserved verbatim by dict.copy()). -/
structure Article where
  texto : Option Txt
  texto_completo : Option Txt
  content : Option Txt
  body : Option Txt
  snippet : Option Txt
  compressed : Option Bool
  other : List (Txt × Txt)
deriving DecidableEq, Inhabited

/-- context_compressor._resolve_article_text: the first truthy field in the
priority chain texto > texto_completo > content > body > snippet, stripped;
empty when every field is missing or empty. -/
def resolve_article_text (a : Article) : Txt :=
  match truthyF a.texto <|> truthyF a.texto_completo <|> truthyF a.content <|>
      truthyF a.body <|> truthyF a.snippet with
  | some t => strip t
  | none => []

/-- The first legal-keyword set of _score_sentence. -/
def legalKw1 : List Txt :=
  [['m','u','l','t','a'], ['s','a','n','c','i','ó','n'],
   ['i','n','f','r','a','c','c','i','ó','n'], ['p','r','o','h','i','b'],
   ['o','b','l','i','g']]

/-- The modal-obligation keyword set of _score_sentence. -/
def legalKw2 : List Txt :=
  [['d','e','b','e'], ['d','e','b','e','r','á'], ['p','o','d','r','á'],
   ['s','e','r','á']]

/-- context_compressor._score_sentence: query-term hit count plus fixed legal
keyword bonuses, scaled by a sentence length penalty. -/
def score_sentence (sent : Txt) (qTerms : List Txt) : ℚ :=
  let s := sent.map pyLower
  let hits : Nat := (qTerms.filter (fun t => t ≠ [])).foldl (fun acc t => acc + countSub t s) 0
  let b1 : ℚ := if legalKw1.any (fun kw => containsSub kw s) then mkRat 1 2 else 0
  let b2 : ℚ := if legalKw2.any (fun kw => containsSub kw s) then mkRat 3 10 else 0
  let pen : ℚ := if sent.length < 50 then mkRat 1 2 else if 300 < sent.length then mkRat 7 10 else 1
  qMul (qAdd (qAdd (hits : ℚ) b1) b2) pen

/-- A line that carries the article header marker: 'ARTÍCULO' or 'ART.'
occurs in its uppercased form. -/
def isHeaderLine (line : Txt) : Bool :=
  containsSub (['A','R','T','Í','C','U','L','O']) (line.map pyUpper) ||
  containsSub (['A','R','T','.']) (line.map pyUpper)

/-- The header search of compress_article: the first marker line (stripped)
and the index after it; defaults to no header and body start 0. -/
def findHeader (lines : List Txt) : Txt × Nat :=
  match lines.enum.find? (fun p => isHeaderLine p.2) with
  | some (i, line) => (strip line, i + 1)
  | none => ([], 0)

/-- The greedy selection loop of compress_article: take a sentence when it
still fits (plus two joining characters), stop as soon as the running length
reaches 90% of the budget. -/
def selectLoop (scored : List (Txt × ℚ)) (maxc : Nat) (cur : Nat) : List Txt :=
  match scored with
  | [] => []
  | (s, _) :: rest =>
    if cur + s.length + 2 ≤ maxc then
      let cur2 := cur + s.length + 2
      if qMul (mkRat 9 10) (maxc : ℚ) ≤ (cur2 : ℚ) then [s]
      else s :: selectLoop rest maxc cur2
    else
      if qMul (mkRat 9 10) (maxc : ℚ) ≤ (cur : ℚ) then []
      else selectLoop rest maxc cur

/-- The truncation marker appended on hard truncation. -/
def truncMarker : Txt := ['.', '.', '.']

/-- The final hard-truncation step of compress_article: when the assembled
result exceeds the budget, cut it at the budget and append the marker. -/
def finalTrunc (res : Txt) (maxChars : Nat) : Txt :=
  if maxChars < res.length then res.take maxChars ++ truncMarker else res

/-- The query terms of compress_article: words of at least three characters,
lowercased. -/
def queryTerms (query : Txt) : List Txt :=
  ((wordRuns query).filter (fun w => 3 ≤ w.length)).map (List.map pyLower)

/-- context_compressor.compress_article: return short texts unchanged;
otherwise split off the header line, score and stably sort the body
sentences, greedily select the best ones under the budget, and hard-truncate
with a marker when the assembly still exceeds the budget. -/
def compress_article (text : Txt) (query : Txt) (maxChars : Nat) : Txt :=
  if text.length ≤ maxChars then text
  else
    let lines := splitOnChar '\n' text
    let hb := findHeader lines
    let header := hb.1
    let bodyText := List.intercalate ['\n'] (lines.drop hb.2)
    let sentences := ((sentSplit bodyText).map strip).filter (fun s => s ≠ [])
    if sentences = [] then text.take maxChars
    else
      let qTerms := queryTerms query
      let scored := sentences.map (fun s => (s, score_sentence s qTerms))
      let sorted := sortDescBy (fun p => p.2) scored
      let initLen := if header ≠ [] then header.length + 1 else 0
      let selected := selectLoop sorted maxChars initLen
      let parts := (if header ≠ [] then [header] else []) ++
        (if selected ≠ [] then [List.intercalate [' '] selected] else [])
      finalTrunc (List.intercalate ['\n'] parts) maxChars

/-- Total resolved text length over a list of articles. -/
def totalChars (arts : List Article) : Nat :=
  (arts.map (fun a => (resolve_article_text a).length)).sum

/-- The per-article budget of compress_context: integer division of the total
budget by the article count, or the full budget for an empty list. -/
def avgLimit (arts : List Article) (budget : Nat) : Nat :=
  if arts.length = 0 then budget else budget / arts.length

/-- The compressed variant of one article: a copy whose content field holds
the compressed text and whose compressed flag is set. -/
def compressedVariant (a : Article) (query : Txt) (limit : Nat) : Article :=
  { a with content := some (compress_article (resolve_article_text a) query limit),
           compressed := some true }

/-- context_compressor.compress_context: pass the list through when the total
resolved length fits the budget; otherwise return, in order, each article
unchanged when its text fits the per-article budget and its compressed
variant when it does not. -/
def compress_context (arts : List Article) (query : Txt) (budget : Nat) : List Article :=
  if totalChars arts ≤ budget then arts
  else
    arts.map (fun a =>
      if (resolve_article_text a).length ≤ avgLimit arts budget then a
      else compressedVariant a query (avgLimit arts budget))

/-! Concrete corpora, retrievers and queries used to instantiate the theorems
below on closed inputs. -/

/-- A metadata record for article 118. -/
def meta118 : Meta :=
  { (default : Meta) with
    doc_id := some 1
    articulo := some 118
    texto := some (['t','e','x','t','o',' ','1','1','8']) }

/-- A second record, article 45. -/
def meta45 : Meta :=
  { (default : Meta) with
    doc_id := some 2
    articulo := some 45
    texto := some (['t','e','x','t','o',' ','4','5']) }

/-- A third record, a second chunk of article 45. -/
def meta45b : Meta :=
  { (default : Meta) with
    doc_id := some 3
    articulo := some 45
    texto := some (['o','t','r','o',' ','4','5']) }

/-- A baseline retriever: two-article corpus, both optional stages off. -/
def rBase : Retriever :=
  { meta := [meta118, meta45], top_k := 6, overfetch := 32, min_score := mkRat 35 100,
    use_bm25 := false, bm25 := none, reranker := none }

/-- The query mentioning article 118. -/
def q118 : Txt := "¿Qué dice el artículo 118?".toList

/-- A query with no article reference. -/
def qPlain : Txt := ['m','u','l','t','a','s']

/-- A BM25 stand-in whose scores depend on the corpus it was built from: every
document scores the number of documents of the build corpus.  Distinguishes a
model built over the full corpus from one built over the candidate texts. -/
def bmLibSize : List (List Txt) → List Txt → List ℚ :=
  fun corpus _ => corpus.map (fun _ => (corpus.length : ℚ))

/-- Three-record corpus for the BM25 stage. -/
def metaBm : List Meta := [meta118, meta45, meta45b]

/-- The retriever built by initRetriever over metaBm with BM25 enabled. -/
def rBm : Retriever :=
  match initRetriever 3 metaBm 6 32 (mkRat 35 100) true true bmLibSize none with
  | .ok r => r
  | .error _ => rBase

/-- The corpus-built get_scores function rBm carries. -/
def gBm : List Txt → List ℚ :=
  bmLibSize (metaBm.map (fun m => tokenize (get_text m)))

/-- Two semantic candidates drawn from metaBm. -/
def candsBm : List Candidate :=
  [pack meta118 (mkRat 1 2) strSemantic, pack meta45 (mkRat 1 2) strSemantic]

/-- The lexical scores the specification describes: a model built over the
candidate texts only (not the full corpus), one score per candidate position.
Modelled from the spec for comparison against the code's corpus-built stage. -/
def specCandidateLexScores (bmLib : List (List Txt) → List Txt → List ℚ)
    (cands : List Candidate) (q : Txt) : List ℚ :=
  bmLib (cands.map (fun c => tokenize c.texto)) (tokenize q)

/-- A cross-encoder whose predict always succeeds with constant score 9. -/
def ceConst : List (Txt × Txt) → Option (List ℚ) :=
  fun ps => some (ps.map (fun _ => (9 : ℚ)))

/-- A cross-encoder whose predict always raises. -/
def ceFail : List (Txt × Txt) → Option (List ℚ) :=
  fun _ => none

/-- rBase with the constant cross-encoder enabled. -/
def rCE : Retriever := { rBase with reranker := some ceConst }

/-- rBase with the failing cross-encoder enabled. -/
def rCEf : Retriever := { rBase with reranker := some ceFail }

/-- An article whose only text lives in its content field. -/
def artContent : Article :=
  { texto := none, texto_completo := none, content := some (List.replicate 12 'a'),
    body := none, snippet := none, compressed := none, other := [] }

/-- A single-article list whose total text exceeds a budget of 5. -/
def artsContent : List Article := [artContent]

/-- Vector results for the q118 run: two rows below the direct hit's score. -/
def v118 : List (ℤ × ℚ) := [((0 : ℤ), mkRat 1 2), ((1 : ℤ), mkRat 9 10)]

/-- Vector results with a single above-threshold row for article 45. -/
def vSem : List (ℤ × ℚ) := [((1 : ℤ), mkRat 1 2)]

/-! Helper lemmas. -/

/-- The stable descending sort is a permutation of its input. -/
theorem sortDescBy_perm {α : Type} (key : α → ℚ) (l : List α) :
    List.Perm (sortDescBy key l) l :=
  List.perm_insertionSort _ l

/-- The stable descending sort is sorted: later keys are at most earlier
keys. -/
theorem sortDescBy_pairwise {α : Type} (key : α → ℚ) (l : List α) :
    List.Pairwise (fun a b => key b ≤ key a) (sortDescBy key l) := by
  haveI : IsTotal α (fun a b => key b ≤ key a) := ⟨fun a b => le_total (key b) (key a)⟩
  haveI : IsTrans α (fun a b => key b ≤ key a) :=
    ⟨fun a b c hab hbc => le_trans hbc hab⟩
  exact List.sorted_insertionSort _ l

/-- A head dominating every element of the tail stays in front after the
stable descending sort. -/
theorem sortDescBy_cons_max {α : Type} (key : α → ℚ) (x : α) (xs : List α)
    (h : ∀ y ∈ xs, key y ≤ key x) :
    sortDescBy key (x :: xs) = x :: sortDescBy key xs := by
  apply List.insertionSort_cons
  intro b hb
  exact h b hb

/-- insertAsc permutes the element into the list. -/
theorem insertAsc_perm (x : ℤ) (l : List ℤ) : List.Perm (insertAsc x l) (x :: l) := by
  induction l with
  | nil => rfl
  | cons y ys ih =>
    rw [insertAsc]
    split
    · rfl
    · exact ((ih.cons y).trans (List.Perm.swap x y ys)).symm.symm

/-- sortAsc is a permutation. -/
theorem sortAsc_perm (l : List ℤ) : List.Perm (sortAsc l) l := by
  induction l with
  | nil => rfl
  | cons x xs ih => exact (insertAsc_perm x (sortAsc xs)).trans (ih.cons x)

/-- The extracted article numbers are pairwise distinct. -/
theorem extract_nodup (q : Txt) : (extract_article_numbers q).Nodup := by
  unfold extract_article_numbers
  exact ((sortAsc_perm _).nodup_iff).mpr (List.nodup_dedup _)

/-- lastMatchIdx returns the index of a record satisfying the predicate. -/
theorem lastMatchIdx_spec (p : Meta → Bool) :
    ∀ (l : List Meta) (i : Nat), lastMatchIdx p l = some i →
      ∃ m, l[i]? = some m ∧ p m = true := by
  intro l
  induction l with
  | nil => intro i h; simp [lastMatchIdx] at h
  | cons m rest ih =>
    intro i h
    rw [lastMatchIdx] at h
    cases hr : lastMatchIdx p rest with
    | some j =>
      rw [hr] at h
      cases h
      obtain ⟨m', hm', hp⟩ := ih j hr
      exact ⟨m', by simpa using hm', hp⟩
    | none =>
      rw [hr] at h
      by_cases hp : p m
      · simp [hp] at h
        cases h
        exact ⟨m, by simp, by simpa using hp⟩
      · simp [hp] at h

/-- artToIdx points at a record carrying the requested article number. -/
theorem artToIdx_spec (meta : List Meta) (a : ℤ) (i : Nat)
    (h : artToIdx meta a = some i) :
    ∃ m, meta[i]? = some m ∧ m.articulo = some a := by
  obtain ⟨m, hm, hp⟩ := lastMatchIdx_spec _ meta i h
  refine ⟨m, hm, ?_⟩
  simpa using hp

theorem pack_source (m : Meta) (s : ℚ) (src : Txt) : (pack m s src).source = src := rfl

theorem pack_score (m : Meta) (s : ℚ) (src : Txt) : (pack m s src).score = s := rfl

theorem pack_articulo (m : Meta) (s : ℚ) (src : Txt) : (pack m s src).articulo = m.articulo := rfl

/-- The direct stage appends its hits after the given candidates; every
appended hit is a score-1.0 "direct" pack of the record its article number
points at. -/
theorem directLoop_spec (meta : List Meta) :
    ∀ (nums : List ℤ) (cands : List Candidate) (seen : List (Option ℤ)),
      ∃ tail stail, directLoop meta nums cands seen = (cands ++ tail, seen ++ stail) ∧
        ∀ c ∈ tail, ∃ num i m, num ∈ nums ∧ artToIdx meta num = some i ∧
          meta[i]? = some m ∧ c = pack m 1 strDirect := by
  intro nums
  induction nums with
  | nil =>
    intro cands seen
    exact ⟨[], [], by simp [directLoop], by simp⟩
  | cons num rest ih =>
    intro cands seen
    cases hidx : artToIdx meta num with
    | none =>
      simp only [directLoop, hidx]
      obtain ⟨t, st, heq, hp⟩ := ih cands seen
      refine ⟨t, st, heq, fun c hc => ?_⟩
      obtain ⟨n, i, m, hn, h1, h2, h3⟩ := hp c hc
      exact ⟨n, i, m, List.mem_cons_of_mem _ hn, h1, h2, h3⟩
    | some idx =>
      cases hm : meta[idx]? with
      | none =>
        simp only [directLoop, hidx, hm]
        obtain ⟨t, st, heq, hp⟩ := ih cands seen
        refine ⟨t, st, heq, fun c hc => ?_⟩
        obtain ⟨n, i, m, hn, h1, h2, h3⟩ := hp c hc
        exact ⟨n, i, m, List.mem_cons_of_mem _ hn, h1, h2, h3⟩
      | some m =>
        simp only [directLoop, hidx, hm]
        obtain ⟨t, st, heq, hp⟩ := ih (cands ++ [pack m 1 strDirect]) (seen ++ [some num])
        refine ⟨pack m 1 strDirect :: t, some num :: st, by rw [heq]; simp, fun c hc => ?_⟩
        rcases List.mem_cons.mp hc with hc | hc
        · exact ⟨num, idx, m, List.mem_cons_self _ _, hidx, hm, hc⟩
        · obtain ⟨n, i, m', hn, h1, h2, h3⟩ := hp c hc
          exact ⟨n, i, m', List.mem_cons_of_mem _ hn, h1, h2, h3⟩

/-- The vector stage appends its hits after the given candidates; every
appended hit is a "semantic" pack of an in-range row of the vector results
whose similarity clears the evidence floor. -/
theorem vectorLoop_spec (meta : List Meta) (minScore : ℚ) :
    ∀ (v : List (ℤ × ℚ)) (cands : List Candidate) (seen : List (Option ℤ)),
      ∃ tail, (vectorLoop meta minScore v cands seen).1 = cands ++ tail ∧
        ∀ c ∈ tail, ∃ i s m, ((i, s) ∈ v) ∧ minScore ≤ s ∧
          meta[i.toNat]? = some m ∧ c = pack m s strSemantic := by
  intro v
  induction v with
  | nil =>
    intro cands seen
    exact ⟨[], by simp [vectorLoop], by simp⟩
  | cons p rest ih =>
    intro cands seen
    obtain ⟨idx, s⟩ := p
    by_cases hrange : idx < 0 ∨ (meta.length : ℤ) ≤ idx
    · simp only [vectorLoop, if_pos hrange]
      obtain ⟨t, heq, hp⟩ := ih cands seen
      refine ⟨t, heq, fun c hc => ?_⟩
      obtain ⟨i, s', m', h1, h2, h3, h4⟩ := hp c hc
      exact ⟨i, s', m', List.mem_cons_of_mem _ h1, h2, h3, h4⟩
    · simp only [vectorLoop, if_neg hrange]
      cases hm : meta[idx.toNat]? with
      | none =>
        simp only [hm]
        obtain ⟨t, heq, hp⟩ := ih cands seen
        refine ⟨t, heq, fun c hc => ?_⟩
        obtain ⟨i, s', m', h1, h2, h3, h4⟩ := hp c hc
        exact ⟨i, s', m', List.mem_cons_of_mem _ h1, h2, h3, h4⟩
      | some m =>
        simp only [hm]
        by_cases hseen : m.articulo ∈ seen
        · simp only [if_pos hseen]
          obtain ⟨t, heq, hp⟩ := ih cands seen
          refine ⟨t, heq, fun c hc => ?_⟩
          obtain ⟨i, s', m', h1, h2, h3, h4⟩ := hp c hc
          exact ⟨i, s', m', List.mem_cons_of_mem _ h1, h2, h3, h4⟩
        · simp only [if_neg hseen]
          by_cases hfloor : s < minScore
          · simp only [if_pos hfloor]
            obtain ⟨t, heq, hp⟩ := ih cands seen
            refine ⟨t, heq, fun c hc => ?_⟩
            obtain ⟨i, s', m', h1, h2, h3, h4⟩ := hp c hc
            exact ⟨i, s', m', List.mem_cons_of_mem _ h1, h2, h3, h4⟩
          · simp only [if_neg hfloor]
            obtain ⟨t, heq, hp⟩ := ih (cands ++ [pack m s strSemantic]) (seen ++ [m.articulo])
            refine ⟨pack m s strSemantic :: t, by rw [heq]; simp, fun c hc => ?_⟩
            rcases List.mem_cons.mp hc with hc | hc
            · exact ⟨idx, s, m, List.mem_cons_self _ _, not_lt.mp hfloor, hm, hc⟩
            · obtain ⟨i, s', m', h1, h2, h3, h4⟩ := hp c hc
              exact ⟨i, s', m', List.mem_cons_of_mem _ h1, h2, h3, h4⟩

/-- Invariant of the direct stage: with pairwise-distinct, unseen article
numbers, the candidate list keeps pairwise-distinct article values, each of
them recorded in the seen set. -/
theorem directLoop_nodup (meta : List Meta) :
    ∀ (nums : List ℤ) (cands : List Candidate) (seen : List (Option ℤ)),
      nums.Nodup → (∀ n ∈ nums, (some n : Option ℤ) ∉ seen) →
      (∀ c ∈ cands, c.articulo ∈ seen) →
      ((cands.map (fun c => c.articulo)).Nodup) →
      (∀ c ∈ (directLoop meta nums cands seen).1,
          c.articulo ∈ (directLoop meta nums cands seen).2) ∧
        (((directLoop meta nums cands seen).1.map (fun c => c.articulo)).Nodup) := by
  intro nums
  induction nums with
  | nil =>
    intro cands seen _ _ h1 h2
    exact ⟨by simpa [directLoop] using h1, by simpa [directLoop] using h2⟩
  | cons num rest ih =>
    intro cands seen hnd hns h1 h2
    have hnd' : rest.Nodup := (List.nodup_cons.mp hnd).2
    have hnum : num ∉ rest := (List.nodup_cons.mp hnd).1
    cases hidx : artToIdx meta num with
    | none =>
      simp only [directLoop, hidx]
      exact ih cands seen hnd' (fun n hn => hns n (List.mem_cons_of_mem _ hn)) h1 h2
    | some idx =>
      cases hm : meta[idx]? with
      | none =>
        simp only [directLoop, hidx, hm]
        exact ih cands seen hnd' (fun n hn => hns n (List.mem_cons_of_mem _ hn)) h1 h2
      | some m =>
        simp only [directLoop, hidx, hm]
        have hart : m.articulo = some num := by
          obtain ⟨m', hm', ha⟩ := artToIdx_spec meta num idx hidx
          rw [hm] at hm'
          cases hm'
          exact ha
        apply ih _ _ hnd'
        · intro n hn
          simp only [List.mem_append, List.mem_singleton]
          push_neg
          refine ⟨hns n (List.mem_cons_of_mem _ hn), ?_⟩
          intro hcontra
          have : n = num := by simpa using hcontra
          exact hnum (this ▸ hn)
        · intro c hc
          rcases List.mem_append.mp hc with hc | hc
          · exact List.mem_append_left _ (h1 c hc)
          · have : c = pack m 1 strDirect := by simpa using hc
            subst this
            simp [pack_articulo, hart]
        · rw [List.map_append]
          apply List.Nodup.append h2 (by simp)
          intro x hx hx'
          obtain ⟨c, hc, rfl⟩ := List.mem_map.mp hx
          have hxs : c.articulo ∈ seen := h1 c hc
          have hxn : c.articulo = some num := by simpa [pack_articulo, hart] using hx'
          rw [hxn] at hxs
          exact hns num (List.mem_cons_self _ _) hxs

/-- Invariant of the vector stage: seen-set dedup keeps the article values of
the candidate list pairwise distinct. -/
theorem vectorLoop_nodup (meta : List Meta) (minScore : ℚ) :
    ∀ (v : List (ℤ × ℚ)) (cands : List Candidate) (seen : List (Option ℤ)),
      (∀ c ∈ cands, c.articulo ∈ seen) →
      ((cands.map (fun c => c.articulo)).Nodup) →
      (((vectorLoop meta minScore v cands seen).1.map (fun c => c.articulo)).Nodup) := by
  intro v
  induction v with
  | nil =>
    intro cands seen _ h2
    simpa [vectorLoop] using h2
  | cons p rest ih =>
    intro cands seen h1 h2
    obtain ⟨idx, s⟩ := p
    by_cases hrange : idx < 0 ∨ (meta.length : ℤ) ≤ idx
    · simp only [vectorLoop, if_pos hrange]
      exact ih cands seen h1 h2
    · simp only [vectorLoop, if_neg hrange]
      cases hm : meta[idx.toNat]? with
      | none =>
        simp only [hm]
        exact ih cands seen h1 h2
      | some m =>
        simp only [hm]
        by_cases hseen : m.articulo ∈ seen
        · simp only [if_pos hseen]
          exact ih cands seen h1 h2
        · simp only [if_neg hseen]
          by_cases hfloor : s < minScore
          · simp only [if_pos hfloor]
            exact ih cands seen h1 h2
          · simp only [if_neg hfloor]
            apply ih
            · intro c hc
              rcases List.mem_append.mp hc with hc | hc
              · exact List.mem_append_left _ (h1 c hc)
              · have : c = pack m s strSemantic := by simpa using hc
                subst this
                simp [pack_articulo]
            · rw [List.map_append]
              apply List.Nodup.append h2 (by simp)
              intro x hx hx'
              obtain ⟨c, hc, rfl⟩ := List.mem_map.mp hx
              have hxs : c.articulo ∈ seen := h1 c hc
              have hxn : c.articulo = m.articulo := by simpa [pack_articulo] using hx'
              rw [hxn] at hxs
              exact hseen hxs

/-- Members of a zipWith image arise from members of the zipped lists. -/
theorem mem_zipWith_pair {α β γ : Type} {f : α → β → γ} :
    ∀ (l₁ : List α) (l₂ : List β) (c : γ), c ∈ List.zipWith f l₁ l₂ →
      ∃ a ∈ l₁, ∃ b ∈ l₂, c = f a b := by
  intro l₁
  induction l₁ with
  | nil => intro l₂ c hc; simp at hc
  | cons a as ih =>
    intro l₂ c hc
    cases l₂ with
    | nil => simp at hc
    | cons b bs =>
      rcases List.mem_cons.mp hc with hc | hc
      · exact ⟨a, List.mem_cons_self _ _, b, List.mem_cons_self _ _, hc⟩
      · obtain ⟨a', ha, b', hb, hc⟩ := ih bs c hc
        exact ⟨a', List.mem_cons_of_mem _ ha, b', List.mem_cons_of_mem _ hb, hc⟩

/-- Every output of the cross-encoder stage is a member of its input with at
most the score changed. -/
theorem rerankStage_mem (r : Retriever) (q : Txt) (l : List Candidate) :
    ∀ c ∈ rerankStage r q l, ∃ c2 ∈ l, sansScore c = sansScore c2 := by
  intro c hc
  unfold rerankStage at hc
  cases hr : r.reranker with
  | none =>
    rw [hr] at hc
    exact ⟨c, hc, rfl⟩
  | some f =>
    rw [hr] at hc
    dsimp only at hc
    by_cases hl : l.length = 0
    · rw [if_pos hl] at hc
      exact ⟨c, hc, rfl⟩
    · rw [if_neg hl] at hc
      cases hf : f (mkPairs q l) with
      | none =>
        rw [hf] at hc
        exact ⟨c, hc, rfl⟩
      | some scores =>
        rw [hf] at hc
        rcases List.mem_append.mp hc with hc | hc
        · obtain ⟨a, ha, b, hb, hcab⟩ := mem_zipWith_pair l scores c hc
          exact ⟨a, ha, by rw [hcab]; rfl⟩
        · exact ⟨c, List.mem_of_mem_drop hc, rfl⟩

/-- The cross-encoder stage does not change the article values, positionally. -/
theorem rerankStage_map_articulo (r : Retriever) (q : Txt) (l : List Candidate) :
    (rerankStage r q l).map (fun c => c.articulo) = l.map (fun c => c.articulo) := by
  unfold rerankStage
  cases hr : r.reranker with
  | none => rfl
  | some f =>
    dsimp only
    by_cases hl : l.length = 0
    · rw [if_pos hl]
    · rw [if_neg hl]
      cases hf : f (mkPairs q l) with
      | none => rfl
      | some scores =>
        rw [List.map_append]
        have key : ∀ (l1 : List Candidate) (s1 : List ℚ),
            (List.zipWith (fun c sc => { c with score := sc }) l1 s1).map
                (fun c => c.articulo) ++ (l1.drop s1.length).map (fun c => c.articulo) =
              l1.map (fun c => c.articulo) := by
          intro l1
          induction l1 with
          | nil => intro s1; simp
          | cons x xs ih =>
            intro s1
            cases s1 with
            | nil => simp
            | cons y ys => simpa using ih ys
        exact key l scores

/-- Every output of the BM25 stage is a member of its input with at most the
score changed. -/
theorem bm25Stage_mem (r : Retriever) (q : Txt) (l : List Candidate) :
    ∀ c ∈ bm25Stage r q l, ∃ c2 ∈ l, sansScore c = sansScore c2 := by
  intro c hc
  unfold bm25Stage at hc
  by_cases hu : r.use_bm25
  · rw [if_pos hu] at hc
    cases hb : r.bm25 with
    | none => rw [hb] at hc; exact ⟨c, hc, rfl⟩
    | some g =>
      rw [hb] at hc
      dsimp only at hc
      by_cases h2 : 1 < l.length
      · rw [if_pos h2] at hc
        obtain ⟨c2, hc2, hceq⟩ := List.mem_map.mp hc
        exact ⟨c2, hc2, by rw [← hceq]; rfl⟩
      · rw [if_neg h2] at hc
        exact ⟨c, hc, rfl⟩
  · rw [if_neg hu] at hc
    exact ⟨c, hc, rfl⟩

/-- The BM25 stage does not change the article values, positionally. -/
theorem bm25Stage_map_articulo (r : Retriever) (q : Txt) (l : List Candidate) :
    (bm25Stage r q l).map (fun c => c.articulo) = l.map (fun c => c.articulo) := by
  unfold bm25Stage
  by_cases hu : r.use_bm25
  · rw [if_pos hu]
    cases hb : r.bm25 with
    | none => rfl
    | some g =>
      dsimp only
      by_cases h2 : 1 < l.length
      · rw [if_pos h2]
        simp [List.map_map]
      · rw [if_neg h2]
  · rw [if_neg hu]

/-- Candidates with equal score-erased forms carry the same source tag. -/
theorem sansScore_source {c c2 : Candidate} (h : sansScore c = sansScore c2) :
    c.source = c2.source := by
  have h1 : (sansScore c).source = (sansScore c2).source := by rw [h]
  simpa [sansScore] using h1

/-- Every search result is, up to its score, a candidate produced by the
direct and vector stages. -/
theorem search_mem_pre (r : Retriever) (v : List (ℤ × ℚ)) (q : Txt) (tk : Option Nat) :
    ∀ c ∈ search r v q tk, ∃ c2 ∈ preCandidates r v q, sansScore c = sansScore c2 := by
  intro c hc
  unfold search at hc
  have hc1 : c ∈ sortDescBy (fun c => c.score)
      (bm25Stage r q (rerankStage r q (preCandidates r v q))) :=
    List.mem_of_mem_take hc
  have hc2 : c ∈ bm25Stage r q (rerankStage r q (preCandidates r v q)) :=
    (sortDescBy_perm _ _).mem_iff.mp hc1
  obtain ⟨c3, hc3, he3⟩ := bm25Stage_mem r q _ c hc2
  obtain ⟨c4, hc4, he4⟩ := rerankStage_mem r q _ c3 hc3
  exact ⟨c4, hc4, he3.trans he4⟩

/-- Pointwise description of a mapped list. -/
theorem forall₂_map_self {α β : Type} {R : α → β → Prop} (f : α → β) :
    ∀ l : List α, (∀ a ∈ l, R a (f a)) → List.Forall₂ R l (l.map f) := by
  intro l
  induction l with
  | nil => intro _; simp
  | cons a as ih =>
    intro h
    exact List.Forall₂.cons (h a (List.mem_cons_self _ _))
      (ih fun a ha => h a (List.mem_cons_of_mem _ ha))

/-- Pointwise description of an unchanged list. -/
theorem forall₂_self {α : Type} {R : α → α → Prop} :
    ∀ l : List α, (∀ a ∈ l, R a a) → List.Forall₂ R l l := by
  intro l
  induction l with
  | nil => intro _; simp
  | cons a as ih =>
    intro h
    exact List.Forall₂.cons (h a (List.mem_cons_self _ _))
      (ih fun a ha => h a (List.mem_cons_of_mem _ ha))

/-- The hard-truncation step never exceeds the budget plus the marker. -/
theorem finalTrunc_length_le (res : Txt) (maxChars : Nat) :
    (finalTrunc res maxChars).length ≤ maxChars + truncMarker.length := by
  unfold finalTrunc
  split
  · rw [List.length_append, List.length_take]
    have : min maxChars res.length ≤ maxChars := min_le_left _ _
    omega
  · rename_i hshort
    push_neg at hshort
    omega

/-- Any output of the compression path is at most the budget plus the
truncation marker long. -/
theorem compress_article_length_le (text q : Txt) (maxChars : Nat)
    (h : maxChars < text.length) :
    (compress_article text q maxChars).length ≤ maxChars + truncMarker.length := by
  unfold compress_article
  rw [if_neg (by omega)]
  dsimp only
  split
  · rw [List.length_take]
    have := min_le_left maxChars text.length
    omega
  · exact finalTrunc_length_le _ _

/-! Claim theorems. -/

/-- C5: retriever construction succeeds exactly when the vector-index row
count equals the metadata row count; any mismatch aborts construction with no
degraded mode. -/
theorem init_alignment_iff (nt : Nat) (meta : List Meta) (tk ov : Nat) (ms : ℚ)
    (ub hb : Bool) (bmLib : List (List Txt) → List Txt → List ℚ)
    (rr : Option (List (Txt × Txt) → Option (List ℚ))) :
    (∃ r, initRetriever nt meta tk ov ms ub hb bmLib rr = .ok r) ↔ nt = meta.length := by
  unfold initRetriever
  by_cases h : nt = meta.length
  · simp [h]
  · simp [h]

/-- C2 counterexample: requesting top_k = 0 does not return at most 0
records: Python's (top_k or self.top_k) treats 0 as unset, so the query for
article 118 still returns a record. -/
theorem topk_zero_counterexample :
    ¬ ((search rBase [] q118 (some 0)).length ≤ 0) := by decide

/-- C2 amended: for every requested count k at least 1, search returns at
most k records, sorted by final score in descending order. -/
theorem topk_contract (r : Retriever) (v : List (ℤ × ℚ)) (q : Txt) (k : Nat)
    (hk : 1 ≤ k) :
    (search r v q (some k)).length ≤ k ∧
      List.Pairwise (fun a b : Candidate => b.score ≤ a.score) (search r v q (some k)) := by
  constructor
  · unfold search
    have hek : effectiveK r (some k) = k := by
      unfold effectiveK
      dsimp only
      rw [if_neg (by omega)]
    rw [hek, List.length_take]
    exact min_le_left _ _
  · exact List.Pairwise.sublist (List.take_sublist _ _) (sortDescBy_pairwise _ _)

/-- C2 witness: the contract at a concrete retriever, query and k = 1. -/
theorem topk_contract_witness :
    (search rBase [((0 : ℤ), mkRat 1 2), ((1 : ℤ), mkRat 6 10)] qPlain (some 1)).length ≤ 1 ∧
      List.Pairwise (fun a b : Candidate => b.score ≤ a.score)
        (search rBase [((0 : ℤ), mkRat 1 2), ((1 : ℤ), mkRat 6 10)] qPlain (some 1)) :=
  topk_contract rBase [((0 : ℤ), mkRat 1 2), ((1 : ℤ), mkRat 6 10)] qPlain 1 (by decide)

/-- C10: compression preserves the shape of its input: same length, same
order, each output being the input article itself or its compressed
variant. -/
theorem compress_shape (arts : List Article) (q : Txt) (budget : Nat) :
    (compress_context arts q budget).length = arts.length ∧
      List.Forall₂ (fun a o => o = a ∨ o = compressedVariant a q (avgLimit arts budget))
        arts (compress_context arts q budget) := by
  unfold compress_context
  by_cases h : totalChars arts ≤ budget
  · rw [if_pos h]
    exact ⟨rfl, forall₂_self _ (fun a _ => Or.inl rfl)⟩
  · rw [if_neg h]
    refine ⟨List.length_map _ _, ?_⟩
    apply forall₂_map_self
    intro a ha
    by_cases hl : (resolve_article_text a).length ≤ avgLimit arts budget
    · rw [if_pos hl]
      exact Or.inl rfl
    · rw [if_neg hl]
      exact Or.inr rfl

/-- C8: whenever compression is triggered, every article whose resolved text
exceeds the per-article budget gets a content field bounded by the budget
plus the truncation marker. -/
theorem budget_respect (arts : List Article) (q : Txt) (budget : Nat)
    (htot : budget < totalChars arts) :
    List.Forall₂ (fun a o => avgLimit arts budget < (resolve_article_text a).length →
        ∃ t, o.content = some t ∧ t.length ≤ avgLimit arts budget + truncMarker.length)
      arts (compress_context arts q budget) := by
  unfold compress_context
  rw [if_neg (by omega)]
  apply forall₂_map_self
  intro a ha hlong
  rw [if_neg (by omega)]
  exact ⟨_, rfl, compress_article_length_le _ _ _ hlong⟩

/-- C8 witness: the budget bound at a concrete over-budget article list. -/
theorem budget_respect_witness :
    (5 : Nat) < totalChars artsContent ∧
      List.Forall₂ (fun a o => avgLimit artsContent 5 < (resolve_article_text a).length →
          ∃ t, o.content = some t ∧ t.length ≤ avgLimit artsContent 5 + truncMarker.length)
        artsContent (compress_context artsContent [] 5) :=
  ⟨by decide, budget_respect artsContent [] 5 (by decide)⟩

/-- C9 counterexample: an article whose original text lives in its content
field does not keep its original fields on compression: the content field is
overwritten by the shortened text. -/
theorem compress_overwrites_content :
    (compress_context artsContent [] 5).map (fun a => a.content) ≠
      artsContent.map (fun a => a.content) := by decide

/-- C9 amended: when compression is triggered, articles within the
per-article budget pass through verbatim, and every compressed article keeps
every field except content (overwritten by the shortened text, even when the
original text lived there) and compressed (set to true). -/
theorem compress_fields_amended (arts : List Article) (q : Txt) (budget : Nat)
    (htot : budget < totalChars arts) :
    List.Forall₂ (fun a o =>
        if (resolve_article_text a).length ≤ avgLimit arts budget then o = a
        else o.texto = a.texto ∧ o.texto_completo = a.texto_completo ∧ o.body = a.body ∧
          o.snippet = a.snippet ∧ o.other = a.other ∧ o.compressed = some true ∧
          o.content = some (compress_article (resolve_article_text a) q (avgLimit arts budget)))
      arts (compress_context arts q budget) := by
  unfold compress_context
  rw [if_neg (by omega)]
  apply forall₂_map_self
  intro a ha
  by_cases hl : (resolve_article_text a).length ≤ avgLimit arts budget
  · rw [if_pos hl, if_pos hl]
  · rw [if_neg hl, if_neg hl]
    exact ⟨rfl, rfl, rfl, rfl, rfl, rfl, rfl⟩

/-- C9 witness: the amended field contract at a concrete compressed list. -/
theorem compress_fields_amended_witness :
    (5 : Nat) < totalChars artsContent ∧
      List.Forall₂ (fun a o =>
          if (resolve_article_text a).length ≤ avgLimit artsContent 5 then o = a
          else o.texto = a.texto ∧ o.texto_completo = a.texto_completo ∧ o.body = a.body ∧
            o.snippet = a.snippet ∧ o.other = a.other ∧ o.compressed = some true ∧
            o.content = some (compress_article (resolve_article_text a) [] (avgLimit artsContent 5)))
        artsContent (compress_context artsContent [] 5) :=
  ⟨by decide, compress_fields_amended artsContent [] 5 (by decide)⟩

/-- The executable addition agrees with rational addition. -/
theorem qAdd_eq (a b : ℚ) : qAdd a b = a + b := by
  have ha : ((a.den : ℚ)) ≠ 0 := Nat.cast_ne_zero.mpr a.den_nz
  have hb : ((b.den : ℚ)) ≠ 0 := Nat.cast_ne_zero.mpr b.den_nz
  unfold qAdd
  rw [Rat.mkRat_eq_div]
  push_cast
  conv_rhs => rw [← Rat.num_div_den a, ← Rat.num_div_den b]
  rw [div_add_div _ _ ha hb]
  ring_nf

/-- The executable multiplication agrees with rational multiplication. -/
theorem qMul_eq (a b : ℚ) : qMul a b = a * b := by
  unfold qMul
  rw [Rat.mkRat_eq_div]
  push_cast
  conv_rhs => rw [← Rat.num_div_den a, ← Rat.num_div_den b]
  rw [div_mul_div_comm]

/-- The executable division by a natural agrees with rational division. -/
theorem qDivNat_eq (a : ℚ) (n : Nat) : qDivNat a n = a / (n : ℚ) := by
  unfold qDivNat
  rw [Rat.mkRat_eq_div]
  push_cast
  rw [← div_div, Rat.num_div_den]

/-- Shared core of the BM25 stage equation: when the stage runs, every final
score is the 70/30 blend of the prior score with the corpus-level BM25 lookup
divided by 10. -/
theorem bm25Stage_eq_blend (r : Retriever) (g : List Txt → List ℚ) (q : Txt)
    (cands : List Candidate) (hb : r.use_bm25 = true) (hg : r.bm25 = some g)
    (h2 : 1 < cands.length) :
    bm25Stage r q cands = cands.map (fun c =>
      { c with score := (7 / 10 : ℚ) * c.score +
          (3 / 10 : ℚ) * (bmLookup r.meta (g (tokenize q)) c / 10) }) := by
  unfold bm25Stage
  rw [if_pos hb, hg]
  dsimp only
  rw [if_pos h2]
  simp only [qAdd_eq, qMul_eq, qDivNat_eq, Rat.mkRat_eq_div]
  norm_num

/-- C6 amended: with the lexical stage enabled and at least two candidates,
each final score is 0.7 times the existing score plus 0.3 times a tenth of
the corpus-built BM25 score looked up at the candidate's doc_id row. -/
theorem bm25_blend_formula (r : Retriever) (g : List Txt → List ℚ) (q : Txt)
    (cands : List Candidate) (hb : r.use_bm25 = true) (hg : r.bm25 = some g)
    (h2 : 1 < cands.length) :
    bm25Stage r q cands = cands.map (fun c =>
      { c with score := (7 / 10 : ℚ) * c.score +
          (3 / 10 : ℚ) * (bmLookup r.meta (g (tokenize q)) c / 10) }) :=
  bm25Stage_eq_blend r g q cands hb hg h2

/-- C6 amended witness: the blend equation at the concrete BM25 retriever. -/
theorem bm25_blend_formula_witness :
    bm25Stage rBm qPlain candsBm = candsBm.map (fun c =>
      { c with score := (7 / 10 : ℚ) * c.score +
          (3 / 10 : ℚ) * (bmLookup rBm.meta (gBm (tokenize qPlain)) c / 10) }) :=
  bm25_blend_formula rBm gBm qPlain candsBm rfl rfl (by decide)

/-- C6 counterexample: the final scores do not follow the blend formula with
a lexical model built over the candidate texts only: the code's model, built
over the full corpus at construction, yields a different score when the
library's scores are corpus-sensitive. -/
theorem bm25_candidate_corpus_counterexample :
    bm25Stage rBm qPlain candsBm ≠
      List.zipWith (fun c lex =>
          { c with score := (7 / 10 : ℚ) * c.score + (3 / 10 : ℚ) * (lex / 10) })
        candsBm (specCandidateLexScores bmLibSize candsBm qPlain) := by
  have hspec : specCandidateLexScores bmLibSize candsBm qPlain = [(2 : ℚ), (2 : ℚ)] := by
    decide
  rw [hspec]
  have hbm : bm25Stage rBm qPlain candsBm =
      [pack meta118 (mkRat 11 25) strSemantic, pack meta45 (mkRat 11 25) strSemantic] := by
    decide
  rw [hbm]
  have hzip : List.zipWith (fun c lex =>
        { c with score := (7 / 10 : ℚ) * c.score + (3 / 10 : ℚ) * (lex / 10) })
      candsBm [(2 : ℚ), (2 : ℚ)] =
      [{ pack meta118 (mkRat 1 2) strSemantic with
          score := (7 / 10 : ℚ) * (mkRat 1 2) + (3 / 10 : ℚ) * ((2 : ℚ) / 10) },
        { pack meta45 (mkRat 1 2) strSemantic with
          score := (7 / 10 : ℚ) * (mkRat 1 2) + (3 / 10 : ℚ) * ((2 : ℚ) / 10) }] := rfl
  rw [hzip]
  have hval : (7 / 10 : ℚ) * (mkRat 1 2) + (3 / 10 : ℚ) * ((2 : ℚ) / 10) = mkRat 41 100 := by
    rw [Rat.mkRat_eq_div, Rat.mkRat_eq_div]
    norm_num
  rw [hval]
  decide

/-- C1: a query that explicitly mentions an article number present in the
corpus returns that article's record first, with score 1.0 and source
"direct", regardless of its embedding similarity; with vector similarities
in the cosine range (at most 1), no thresholded vector hit displaces it.
Stated for the base configuration with both optional re-scoring stages off. -/
theorem direct_reference_priority (r : Retriever) (v : List (ℤ × ℚ)) (q : Txt)
    (num : ℤ) (idx : Nat) (m : Meta) (k : Nat)
    (hrr : r.reranker = none) (hbm : r.use_bm25 = false)
    (hx : extract_article_numbers q = [num])
    (hidx : artToIdx r.meta num = some idx)
    (hm : r.meta[idx]? = some m)
    (hs : ∀ p ∈ v, p.2 ≤ 1)
    (hk : 1 ≤ k) :
    m.articulo = some num ∧
      ∃ rest, search r v q (some k) = pack m 1 strDirect :: rest := by
  have hart : m.articulo = some num := by
    obtain ⟨m2, hm2, ha⟩ := artToIdx_spec r.meta num idx hidx
    rw [hm] at hm2
    cases hm2
    exact ha
  refine ⟨hart, ?_⟩
  have hd : directLoop r.meta [num] [] [] = ([pack m 1 strDirect], [some num]) := by
    simp [directLoop, hidx, hm]
  have hpre : preCandidates r v q =
      (vectorLoop r.meta r.min_score v [pack m 1 strDirect] [some num]).1 := by
    unfold preCandidates
    rw [hx, hd]
  obtain ⟨tail, hveq, hvp⟩ :=
    vectorLoop_spec r.meta r.min_score v [pack m 1 strDirect] [some num]
  have hpre2 : preCandidates r v q = pack m 1 strDirect :: tail := by
    rw [hpre, hveq]
    rfl
  have hrr2 : rerankStage r q (preCandidates r v q) = preCandidates r v q := by
    unfold rerankStage
    rw [hrr]
  have hbm2 : bm25Stage r q (preCandidates r v q) = preCandidates r v q := by
    unfold bm25Stage
    rw [if_neg (by simp [hbm])]
  have hmax : ∀ y ∈ tail, (fun c : Candidate => c.score) y ≤
      (fun c : Candidate => c.score) (pack m 1 strDirect) := by
    intro y hy
    obtain ⟨i, s, m2, hmem, _, _, hyeq⟩ := hvp y hy
    have := hs (i, s) hmem
    simp only [hyeq, pack_score]
    simpa using this
  have hsort : sortDescBy (fun c => c.score) (pack m 1 strDirect :: tail) =
      pack m 1 strDirect :: sortDescBy (fun c => c.score) tail :=
    sortDescBy_cons_max _ _ _ hmax
  obtain ⟨k2, rfl⟩ : ∃ k2, k = k2 + 1 := ⟨k - 1, by omega⟩
  have hek : effectiveK r (some (k2 + 1)) = k2 + 1 := by
    unfold effectiveK
    dsimp only
    rw [if_neg (by omega)]
  refine ⟨(sortDescBy (fun c => c.score) tail).take k2, ?_⟩
  unfold search
  rw [hrr2, hbm2, hpre2, hsort, hek]
  rfl

/-- C1 witness: the q118 query against the base retriever with two vector
rows returns the article-118 record first. -/
theorem direct_reference_priority_witness :
    meta118.articulo = some 118 ∧
      ∃ rest, search rBase v118 q118 (some 3) = pack meta118 1 strDirect :: rest :=
  direct_reference_priority rBase v118 q118 118 0 meta118 3 rfl rfl (by decide)
    (by decide) (by decide) (by decide) (by decide)

/-- C3: every record returned with source "semantic" stems from a vector
result row whose pre-rerank similarity clears the configured floor; rows
below the floor never yield a returned record. -/
theorem semantic_evidence_floor (r : Retriever) (v : List (ℤ × ℚ)) (q : Txt)
    (tk : Option Nat) (c : Candidate) (hc : c ∈ search r v q tk)
    (hsem : c.source = strSemantic) :
    ∃ i s, ((i, s) ∈ v) ∧ r.min_score ≤ s ∧
      ∃ m, r.meta[i.toNat]? = some m ∧ sansScore c = sansScore (pack m s strSemantic) := by
  obtain ⟨c2, hc2, he⟩ := search_mem_pre r v q tk c hc
  obtain ⟨dt, dst, hdeq, hdp⟩ := directLoop_spec r.meta (extract_article_numbers q) [] []
  obtain ⟨vt, hveq, hvp⟩ := vectorLoop_spec r.meta r.min_score v
    (directLoop r.meta (extract_article_numbers q) [] []).1
    (directLoop r.meta (extract_article_numbers q) [] []).2
  have hpre : preCandidates r v q =
      (directLoop r.meta (extract_article_numbers q) [] []).1 ++ vt := hveq
  rw [hpre] at hc2
  rcases List.mem_append.mp hc2 with hc2 | hc2
  · exfalso
    rw [hdeq] at hc2
    simp only [List.nil_append] at hc2
    obtain ⟨n, i, m2, _, _, _, hc2eq⟩ := hdp c2 hc2
    have hsrc : c.source = c2.source := sansScore_source he
    rw [hc2eq, pack_source] at hsrc
    rw [hsem] at hsrc
    exact absurd hsrc (by decide)
  · obtain ⟨i, s, m2, hmem, hmin, hm2, hc2eq⟩ := hvp c2 hc2
    exact ⟨i, s, hmem, hmin, m2, hm2, by rw [he, hc2eq]⟩

/-- C3 witness: the single semantic hit of a concrete run satisfies the
evidence-floor description. -/
theorem semantic_evidence_floor_witness :
    ∃ i s, ((i, s) ∈ vSem) ∧ rBase.min_score ≤ s ∧
      ∃ m, rBase.meta[i.toNat]? = some m ∧
        sansScore (pack meta45 (mkRat 1 2) strSemantic) = sansScore (pack m s strSemantic) :=
  semantic_evidence_floor rBase vSem qPlain none (pack meta45 (mkRat 1 2) strSemantic)
    (by decide) rfl

/-- C4: the returned list never carries two records with the same article
value: direct hits are pairwise distinct, semantic hits are deduplicated
against the seen set, and re-scoring, sorting and truncation preserve the
article values. -/
theorem search_dedup_by_article (r : Retriever) (v : List (ℤ × ℚ)) (q : Txt)
    (tk : Option Nat) :
    ((search r v q tk).map (fun c => c.articulo)).Nodup := by
  obtain ⟨hmem, hnd⟩ := directLoop_nodup r.meta (extract_article_numbers q) [] []
    (extract_nodup q) (by simp) (by simp) (by simp)
  have hnd2 := vectorLoop_nodup r.meta r.min_score v
    (directLoop r.meta (extract_article_numbers q) [] []).1
    (directLoop r.meta (extract_article_numbers q) [] []).2 hmem hnd
  have hpre : ((preCandidates r v q).map (fun c => c.articulo)).Nodup := hnd2
  have h3 : ((rerankStage r q (preCandidates r v q)).map (fun c => c.articulo)).Nodup := by
    rw [rerankStage_map_articulo]
    exact hpre
  have h4 : ((bm25Stage r q (rerankStage r q (preCandidates r v q))).map
      (fun c => c.articulo)).Nodup := by
    rw [bm25Stage_map_articulo]
    exact h3
  have h5 : ((sortDescBy (fun c => c.score)
      (bm25Stage r q (rerankStage r q (preCandidates r v q)))).map
        (fun c => c.articulo)).Nodup :=
    (((sortDescBy_perm _ _).map _).nodup_iff).mpr h4
  unfold search
  rw [List.map_take]
  exact List.Nodup.sublist (List.take_sublist _ _) h5

/-- C7: with a cross-encoder present, a successful predict call replaces
every candidate's score by the cross-encoder value (no blending, other fields
untouched), while a failing predict call leaves the search result exactly as
if no cross-encoder were configured. -/
theorem crossencoder_replace_or_keep (r : Retriever)
    (f : List (Txt × Txt) → Option (List ℚ)) (v : List (ℤ × ℚ)) (q : Txt)
    (tk : Option Nat) (hf : r.reranker = some f) :
    (∀ cands scores, f (mkPairs q cands) = some scores → scores.length = cands.length →
        rerankStage r q cands = List.zipWith (fun c s => { c with score := s }) cands scores) ∧
      (f (mkPairs q (preCandidates r v q)) = none →
        search r v q tk = search { r with reranker := none } v q tk) := by
  constructor
  · intro cands scores hsome hlen
    unfold rerankStage
    rw [hf]
    dsimp only
    by_cases hl : cands.length = 0
    · rw [if_pos hl]
      have hnil : cands = [] := List.length_eq_zero.mp hl
      subst hnil
      simp
    · rw [if_neg hl, hsome]
      dsimp only
      rw [hlen, List.drop_length, List.append_nil]
  · intro hfail
    have h1 : rerankStage r q (preCandidates r v q) = preCandidates r v q := by
      unfold rerankStage
      rw [hf]
      dsimp only
      by_cases hl : (preCandidates r v q).length = 0
      · rw [if_pos hl]
      · rw [if_neg hl, hfail]
    unfold search
    rw [h1]
    rfl

/-- C7 witness: the constant cross-encoder overwrites the score of a
singleton candidate list, and a failing cross-encoder leaves the search
result identical to the cross-encoder-free run. -/
theorem crossencoder_replace_or_keep_witness :
    rerankStage rCE qPlain [pack meta45 (mkRat 1 2) strSemantic] =
        [{ pack meta45 (mkRat 1 2) strSemantic with score := 9 }] ∧
      search rCEf vSem qPlain none = search { rCEf with reranker := none } vSem qPlain none := by
  constructor
  · have h := (crossencoder_replace_or_keep rCE ceConst vSem qPlain none rfl).1
      [pack meta45 (mkRat 1 2) strSemantic] [9] rfl (by decide)
    rw [h]
    rfl
  · exact (crossencoder_replace_or_keep rCEf ceFail vSem qPlain none rfl).2 rfl
